import Mathlib

/-!
Verification of the BPS-2025 training notebooks: a shallow embedding of the
LASSO cross-validation sweep, the final-model reporter, feature
standardization, and the Benjamini-Hochberg FDR correction, with theorems
settling the specification's testable properties.

Numeric quantities are embedded as exact rationals (`ℚ`); machine floats in
the notebooks are modelled by exact arithmetic, and tolerance claims are
settled by exact identities that imply them.
-/

namespace BPS

/-- Arithmetic mean of a list of rationals, `np.mean`: sum divided by length
(`0` on the empty list, since `0 / 0 = 0` in `ℚ`). -/
def mean (l : List ℚ) : ℚ := l.sum / l.length

/-- Population variance (`ddof = 0`), the variance `StandardScaler` uses:
mean squared deviation from the mean. -/
def popVar (l : List ℚ) : ℚ :=
  (l.map (fun x => (x - mean l) ^ 2)).sum / l.length

/-- Sample variance (`ddof = 1`), matching `np.std(·, ddof=1) ** 2`: sum of
squared deviations divided by `n - 1`.  The notebooks print its square
root; we keep the exact rational variance. -/
def sampleVar (l : List ℚ) : ℚ :=
  (l.map (fun x => (x - mean l) ^ 2)).sum / ((l.length : ℚ) - 1)

/-- `np.count_nonzero` on a coefficient vector: the number of entries that
are not exactly zero. -/
def countNonzero (l : List ℚ) : ℕ := l.countP (fun x => decide (x ≠ 0))

/-- Sum of a list of terms each in `[0,1]` is at most the length. -/
theorem sum_le_length {l : List ℚ} (h : ∀ x ∈ l, x ≤ 1) :
    l.sum ≤ (l.length : ℚ) := by
  induction l with
  | nil => simp
  | cons a t ih =>
    have ha := h a (List.mem_cons_self a t)
    have ht := ih (fun x hx => h x (List.mem_cons_of_mem a hx))
    simp only [List.sum_cons, List.length_cons]
    push_cast
    linarith

/-- Sum of a list of nonnegative terms is nonnegative. -/
theorem sum_nonneg {l : List ℚ} (h : ∀ x ∈ l, 0 ≤ x) : 0 ≤ l.sum := by
  induction l with
  | nil => simp
  | cons a t ih =>
    have ha := h a (List.mem_cons_self a t)
    have ht := ih (fun x hx => h x (List.mem_cons_of_mem a hx))
    simp only [List.sum_cons]
    linarith

/-- The mean of a list of values each in `[0,1]` is itself in `[0,1]`
(the empty list has mean `0`). -/
theorem mean_mem_unitInterval {l : List ℚ} (h : ∀ x ∈ l, 0 ≤ x ∧ x ≤ 1) :
    0 ≤ mean l ∧ mean l ≤ 1 := by
  rcases l with _ | ⟨a, t⟩
  · simp [mean]
  · have hlen : (0 : ℚ) < ((a :: t).length : ℚ) := by
      simp only [List.length_cons]
      push_cast
      positivity
    constructor
    · exact div_nonneg (sum_nonneg (fun x hx => (h x hx).1)) hlen.le
    · rw [mean, div_le_one hlen]
      exact sum_le_length (fun x hx => (h x hx).2)

/-! ## Feature standardization (`StandardScaler.fit_transform`)

`StandardScaler` maps each entry `x` of a column to `(x - mean) / std`,
where `std` is the *population* standard deviation (`ddof = 0`) of the
column.  Since `ℚ` has no square root, the standard deviation is passed as
a parameter `s` constrained by `s ^ 2 = popVar` and `0 < s`. -/

/-- One column standardized as `StandardScaler` does: subtract the column
mean and divide by the column standard deviation `s`. -/
def standardize (l : List ℚ) (s : ℚ) : List ℚ :=
  l.map (fun x => (x - mean l) / s)

theorem length_cast_ne_zero {l : List ℚ} (hl : l ≠ []) :
    ((l.length : ℚ)) ≠ 0 := by
  have : l.length ≠ 0 := by
    simpa [List.length_eq_zero] using hl
  exact_mod_cast this

theorem sum_map_sub_const (l : List ℚ) (c : ℚ) :
    (l.map (fun x => x - c)).sum = l.sum - l.length * c := by
  induction l with
  | nil => simp
  | cons a t ih =>
    simp only [List.map_cons, List.sum_cons, List.length_cons]
    push_cast
    rw [ih]
    ring

theorem sum_map_div_const (l : List ℚ) (f : ℚ → ℚ) (s : ℚ) :
    (l.map (fun x => f x / s)).sum = (l.map f).sum / s := by
  induction l with
  | nil => simp
  | cons a t ih =>
    simp only [List.map_cons, List.sum_cons]
    rw [ih, add_div]

theorem sum_sub_mean (l : List ℚ) (hl : l ≠ []) :
    (l.map (fun x => x - mean l)).sum = 0 := by
  rw [sum_map_sub_const, mean, mul_div_cancel₀ _ (length_cast_ne_zero hl), sub_self]

theorem mean_standardize (l : List ℚ) (s : ℚ) (hl : l ≠ []) :
    mean (standardize l s) = 0 := by
  unfold mean standardize
  rw [sum_map_div_const l (fun x => x - mean l) s, sum_sub_mean l hl]
  simp

theorem popVar_standardize (l : List ℚ) (s : ℚ) (hl : l ≠ [])
    (hs : s ^ 2 = popVar l) (hs0 : 0 < s) :
    popVar (standardize l s) = 1 := by
  have hlen := length_cast_ne_zero hl
  have hs2 : (s : ℚ) ^ 2 ≠ 0 := by positivity
  have hsq : ((standardize l s).map (fun x => (x - mean (standardize l s)) ^ 2)).sum
      = (l.map (fun x => (x - mean l) ^ 2)).sum / s ^ 2 := by
    rw [mean_standardize l s hl]
    unfold standardize
    rw [List.map_map]
    have hfun : ((fun x => (x - 0) ^ 2) ∘ fun x => (x - mean l) / s)
        = fun x => ((x - mean l) ^ 2) / s ^ 2 := by
      funext x
      simp [div_pow]
    rw [hfun, sum_map_div_const l (fun x => (x - mean l) ^ 2) (s ^ 2)]
  have hlen2 : ((standardize l s).length : ℚ) = (l.length : ℚ) := by
    simp [standardize]
  have hsumsq : (l.map (fun x => (x - mean l) ^ 2)).sum = l.length * s ^ 2 := by
    have := hs.symm
    rw [popVar] at this
    field_simp at this
    linarith [this]
  rw [popVar, hsq, hlen2, hsumsq]
  field_simp

/-- C8: after standardizing a non-constant column the recomputed mean is
exactly `0` and the recomputed (population) standard deviation is exactly
`1`, hence both are within the spec's `1e-6` tolerance.  `s` is the
column's population standard deviation (`s ^ 2 = popVar l`, `0 < s`), and
`t` any recomputed standard deviation of the standardized column. -/
theorem standardize_roundtrip (l : List ℚ) (s : ℚ) (hl : l ≠ [])
    (hs : s ^ 2 = popVar l) (hs0 : 0 < s) :
    |mean (standardize l s) - 0| ≤ 1 / 1000000 ∧
    popVar (standardize l s) = 1 ∧
    ∀ t : ℚ, 0 ≤ t → t ^ 2 = popVar (standardize l s) → |t - 1| ≤ 1 / 1000000 := by
  refine ⟨?_, popVar_standardize l s hl hs hs0, ?_⟩
  · rw [mean_standardize l s hl]
    norm_num
  · intro t ht hts
    rw [popVar_standardize l s hl hs hs0] at hts
    have : t = 1 := by nlinarith
    rw [this]
    norm_num

/-- Witness for C8 at the concrete column `[0, 2]`, whose population
variance is `1`, so its standard deviation is `s = 1`. -/
theorem standardize_roundtrip_witness :
    ([(0 : ℚ), 2] ≠ ([] : List ℚ)) ∧
    ((1 : ℚ) ^ 2 = popVar [(0 : ℚ), 2]) ∧
    (|mean (standardize [(0 : ℚ), 2] 1) - 0| ≤ 1 / 1000000 ∧
     popVar (standardize [(0 : ℚ), 2] 1) = 1 ∧
     ∀ t : ℚ, 0 ≤ t → t ^ 2 = popVar (standardize [(0 : ℚ), 2] 1) →
       |t - 1| ≤ 1 / 1000000) := by
  refine ⟨by simp, by norm_num [popVar, mean], ?_⟩
  exact standardize_roundtrip [(0 : ℚ), 2] 1 (by simp)
    (by norm_num [popVar, mean]) (by norm_num)

/-! ## Final-model reporter

Embeds the notebook cell

    coef             = final_model.coef_.flatten()
    nonzero_indices  = coef != 0
    nonzero_coefs    = coef[nonzero_indices]
    nonzero_features = X_train.columns[nonzero_indices]
    sorted_indices   = abs(nonzero_coefs).argsort()[::-1]
    sorted_features  = nonzero_features[sorted_indices]
    sorted_coefs     = nonzero_coefs[sorted_indices]

`argsort` is modelled as a stable ascending sort of the indices by absolute
coefficient value (numpy's sort of these small arrays is insertion sort,
which is stable); `[::-1]` is `List.reverse`.  Since `filter` preserves
relative order, argsorting positions within the non-zero subarray is the
same as sorting the surviving original column indices with ties broken by
original column index. -/

/-- Original column indices of the non-zero coefficients, in column order
(`nonzero_indices = coef != 0`). -/
def nonzeroIdx (coef : List ℚ) : List ℕ :=
  (List.range coef.length).filter (fun i => decide (coef.getD i 0 ≠ 0))

/-- The stable-ascending-argsort order on column indices: strictly smaller
absolute coefficient first, ties by original column index. -/
def coefAbsLE (coef : List ℚ) (i j : ℕ) : Prop :=
  |coef.getD i 0| < |coef.getD j 0| ∨
    (|coef.getD i 0| = |coef.getD j 0| ∧ i ≤ j)

instance (coef : List ℚ) : DecidableRel (coefAbsLE coef) := fun i j =>
  inferInstanceAs (Decidable (_ ∨ _))

instance (coef : List ℚ) : IsTotal ℕ (coefAbsLE coef) where
  total i j := by
    rcases lt_trichotomy |coef.getD i 0| |coef.getD j 0| with h | h | h
    · exact Or.inl (Or.inl h)
    · rcases Nat.le_total i j with hij | hij
      · exact Or.inl (Or.inr ⟨h, hij⟩)
      · exact Or.inr (Or.inr ⟨h.symm, hij⟩)
    · exact Or.inr (Or.inl h)

instance (coef : List ℚ) : IsTrans ℕ (coefAbsLE coef) where
  trans i j k hij hjk := by
    rcases hij with h1 | ⟨h1, h1'⟩ <;> rcases hjk with h2 | ⟨h2, h2'⟩
    · exact Or.inl (h1.trans h2)
    · exact Or.inl (h2 ▸ h1)
    · exact Or.inl (h1 ▸ h2)
    · exact Or.inr ⟨h1.trans h2, h1'.trans h2'⟩

/-- `abs(nonzero_coefs).argsort()[::-1]` translated back to original column
indices: non-zero columns sorted by descending absolute coefficient, ties
in reverse column order (the reversal flips the stable sort's tie order). -/
def sortedNonzero (coef : List ℚ) : List ℕ :=
  (List.insertionSort (coefAbsLE coef) (nonzeroIdx coef)).reverse

/-- The printed list of `(feature name, coefficient)` pairs. -/
def finalReport (features : List String) (coef : List ℚ) :
    List (String × ℚ) :=
  (sortedNonzero coef).map (fun i => (features.getD i "", coef.getD i 0))

theorem sortedNonzero_mem (coef : List ℚ) (i : ℕ) :
    i ∈ sortedNonzero coef ↔ i < coef.length ∧ coef.getD i 0 ≠ 0 := by
  unfold sortedNonzero nonzeroIdx
  rw [List.mem_reverse, (List.perm_insertionSort _ _).mem_iff,
    List.mem_filter, List.mem_range]
  simp

theorem sortedNonzero_pairwise (coef : List ℚ) :
    (sortedNonzero coef).Pairwise (fun i j =>
      |coef.getD j 0| < |coef.getD i 0| ∨
        (|coef.getD j 0| = |coef.getD i 0| ∧ j ≤ i)) := by
  unfold sortedNonzero
  rw [List.pairwise_reverse]
  exact List.sorted_insertionSort (coefAbsLE coef) (nonzeroIdx coef)

/-- C1 (amended): the report lists exactly the non-zero-coefficient
columns; absolute magnitudes are non-increasing along the report; ties in
absolute magnitude are broken by *reverse* original column order (the code
reverses a stable ascending argsort). -/
theorem finalReport_spec (features : List String) (coef : List ℚ) :
    (finalReport features coef).Perm
        ((nonzeroIdx coef).map (fun i => (features.getD i "", coef.getD i 0))) ∧
    (finalReport features coef).Pairwise (fun x y => |y.2| ≤ |x.2|) ∧
    (sortedNonzero coef).Pairwise (fun i j =>
      |coef.getD j 0| < |coef.getD i 0| ∨
        (|coef.getD j 0| = |coef.getD i 0| ∧ j ≤ i)) ∧
    (∀ i, i ∈ sortedNonzero coef ↔ i < coef.length ∧ coef.getD i 0 ≠ 0) := by
  refine ⟨?_, ?_, sortedNonzero_pairwise coef, sortedNonzero_mem coef⟩
  · exact List.Perm.map _
      ((List.reverse_perm _).trans (List.perm_insertionSort _ _))
  · unfold finalReport
    rw [List.pairwise_map]
    refine (sortedNonzero_pairwise coef).imp ?_
    intro i j h
    rcases h with h | ⟨h, _⟩
    · exact h.le
    · exact h.le

/-- C1 counterexample to the claimed tie policy: with columns
`["a", "b"]` and coefficients `[1, -1]` both magnitudes equal `1`, yet the
report lists column `"b"` (the *later* column) first, not `"a"`. -/
theorem finalReport_tie_counterexample :
    finalReport ["a", "b"] [(1 : ℚ), -1] = [("b", (-1 : ℚ)), ("a", (1 : ℚ))] ∧
    |(1 : ℚ)| = |(-1 : ℚ)| ∧ (1 : ℚ) ≠ 0 ∧ (-1 : ℚ) ≠ 0 := by
  refine ⟨?_, by norm_num, by norm_num, by norm_num⟩
  rfl

/-! ## Split manager and fold partition

`train_test_split(X, y, test_size=0.2, random_state=seed, stratify=y)` is
modelled with its seeded (stratified) shuffle abstracted into a permutation
`perm` of the sample indices: the holdout set is the first `nTest` indices
of the shuffled order and the training set is the remainder.

`StratifiedKFold(n_splits=k, shuffle=True, random_state=seed)` is modelled
with its seeded stratified ordering abstracted into the order of the
training-index list: the sample at position `t` of that order is assigned
to fold `t % k`.  The exact membership of each fold depends on the seed in
the original code; every property proved below holds for every ordering. -/

abbrev Row := List ℚ

/-- One sample: feature row and binary outcome label. -/
abbrev Sample := Row × Bool

/-- `train_test_split`: `(train indices, holdout indices)`. -/
def trainTestSplit (perm : List ℕ) (nTest : ℕ) : List ℕ × List ℕ :=
  (perm.drop nTest, perm.take nTest)

/-- `StratifiedKFold`-style partition: fold `f` holds the training indices
at positions `≡ f (mod k)` of the (seed-determined) ordering. -/
def makeFolds (k : ℕ) (trainIdx : List ℕ) : List (List ℕ) :=
  (List.range k).map (fun f =>
    ((trainIdx.enum.filter (fun p => decide (p.1 % k = f))).map Prod.snd))

/-- `final_model.predict(X_holdout)`: one prediction per holdout row,
computed by applying the fitted model's prediction function to that row. -/
def holdoutPredictions (predictRow : Row → Bool) (Xholdout : List Row) :
    List Bool :=
  Xholdout.map predictRow

/-- C4: the train and holdout index sets produced by the split are
disjoint (for every shuffle order without repeated indices), and every
holdout prediction is computed from the corresponding row of `X_holdout`
alone. -/
theorem trainTestSplit_disjoint (perm : List ℕ) (nTest : ℕ)
    (h : perm.Nodup) (predictRow : Row → Bool) (Xholdout : List Row) :
    (∀ i, i ∈ (trainTestSplit perm nTest).2 →
       i ∉ (trainTestSplit perm nTest).1) ∧
    (holdoutPredictions predictRow Xholdout).length = Xholdout.length ∧
    (∀ n, n < Xholdout.length →
       (holdoutPredictions predictRow Xholdout).getD n false
         = predictRow (Xholdout.getD n [])) := by
  refine ⟨?_, by simp [holdoutPredictions], ?_⟩
  · intro i hTake hDrop
    exact (List.disjoint_take_drop h (le_refl nTest)) hTake hDrop
  · intro n hn
    unfold holdoutPredictions
    rw [List.getD_eq_getElem _ _ (by simpa using hn),
      List.getD_eq_getElem _ _ hn, List.getElem_map]

/-- Witness for C4: the identity-order shuffle of five samples with one
holdout row. -/
theorem trainTestSplit_disjoint_witness :
    ([0, 1, 2, 3, 4] : List ℕ).Nodup ∧
    (∀ i, i ∈ (trainTestSplit [0, 1, 2, 3, 4] 1).2 →
       i ∉ (trainTestSplit [0, 1, 2, 3, 4] 1).1) := by
  refine ⟨by decide, ?_⟩
  exact (trainTestSplit_disjoint [0, 1, 2, 3, 4] 1 (by decide)
    (fun _ => true) []).1

/-! ## Fold scoring metrics

`balanced_accuracy_score` and `roc_auc_score` over exact rationals.  In
`ℚ`, `x / 0 = 0`, which stands in for the degenerate single-class folds on
which scikit-learn would warn; all bounds below hold in every case. -/

/-- `balanced_accuracy_score(y_true, y_pred)` for binary labels: the mean
of the true-positive rate and the true-negative rate. -/
def balancedAccuracy (yTrue yPred : List Bool) : ℚ :=
  let pairs := yTrue.zip yPred
  let pos := pairs.filter (fun p => p.1)
  let neg := pairs.filter (fun p => !p.1)
  let tpr := (((pos.filter (fun p => p.2)).length : ℚ)) / (pos.length : ℚ)
  let tnr := (((neg.filter (fun p => !p.2)).length : ℚ)) / (neg.length : ℚ)
  (tpr + tnr) / 2

/-- `roc_auc_score(y_true, y_score)`: the Mann-Whitney form, the fraction
of (positive, negative) pairs ranked correctly, ties counting half. -/
def aurocScore (yTrue : List Bool) (scores : List ℚ) : ℚ :=
  let pairs := yTrue.zip scores
  let pos := (pairs.filter (fun p => p.1)).map Prod.snd
  let neg := (pairs.filter (fun p => !p.1)).map Prod.snd
  (pos.map (fun p =>
    (neg.map (fun n =>
      if n < p then (1 : ℚ) else if n = p then 1 / 2 else 0)).sum)).sum
    / ((pos.length : ℚ) * (neg.length : ℚ))

theorem ratio_mem_unitInterval {a b : ℕ} (h : a ≤ b) :
    0 ≤ (a : ℚ) / (b : ℚ) ∧ (a : ℚ) / (b : ℚ) ≤ 1 := by
  rcases Nat.eq_zero_or_pos b with hb | hb
  · subst hb
    interval_cases a
    simp
  · have hb' : (0 : ℚ) < (b : ℚ) := by exact_mod_cast hb
    exact ⟨div_nonneg (by positivity) hb'.le,
      (div_le_one hb').mpr (by exact_mod_cast h)⟩

theorem balancedAccuracy_mem_unitInterval (yTrue yPred : List Bool) :
    0 ≤ balancedAccuracy yTrue yPred ∧ balancedAccuracy yTrue yPred ≤ 1 := by
  unfold balancedAccuracy
  have h1 := ratio_mem_unitInterval
    (List.length_filter_le (fun p => p.2)
      ((yTrue.zip yPred).filter (fun p => p.1)))
  have h2 := ratio_mem_unitInterval
    (List.length_filter_le (fun p => !p.2)
      ((yTrue.zip yPred).filter (fun p => !p.1)))
  constructor
  · have := h1.1
    have := h2.1
    positivity
  · rw [div_le_one (by norm_num : (0:ℚ) < 2)]
    linarith [h1.2, h2.2]

theorem sum_le_length_mul {l : List ℚ} {c : ℚ} (h : ∀ x ∈ l, x ≤ c) :
    l.sum ≤ (l.length : ℚ) * c := by
  induction l with
  | nil => simp
  | cons a t ih =>
    have ha := h a (List.mem_cons_self a t)
    have ht := ih (fun x hx => h x (List.mem_cons_of_mem a hx))
    simp only [List.sum_cons, List.length_cons]
    push_cast
    linarith

theorem aurocScore_mem_unitInterval (yTrue : List Bool) (scores : List ℚ) :
    0 ≤ aurocScore yTrue scores ∧ aurocScore yTrue scores ≤ 1 := by
  unfold aurocScore
  dsimp only
  set pos := (((yTrue.zip scores).filter (fun p => p.1)).map Prod.snd) with hpos
  set neg := (((yTrue.zip scores).filter (fun p => !p.1)).map Prod.snd) with hneg
  have hterm : ∀ n ∈ neg, ∀ p : ℚ,
      (0:ℚ) ≤ (if n < p then (1 : ℚ) else if n = p then 1 / 2 else 0) ∧
      (if n < p then (1 : ℚ) else if n = p then 1 / 2 else 0) ≤ 1 := by
    intro n _ p
    split_ifs <;> norm_num
  have hinner : ∀ p : ℚ,
      0 ≤ (neg.map (fun n =>
        if n < p then (1 : ℚ) else if n = p then 1 / 2 else 0)).sum ∧
      (neg.map (fun n =>
        if n < p then (1 : ℚ) else if n = p then 1 / 2 else 0)).sum
        ≤ (neg.length : ℚ) := by
    intro p
    constructor
    · refine sum_nonneg ?_
      intro x hx
      obtain ⟨n, hn, rfl⟩ := List.mem_map.mp hx
      exact (hterm n hn p).1
    · have := sum_le_length (l := neg.map (fun n =>
        if n < p then (1 : ℚ) else if n = p then 1 / 2 else 0)) ?_
      · simpa using this
      · intro x hx
        obtain ⟨n, hn, rfl⟩ := List.mem_map.mp hx
        exact (hterm n hn p).2
  have houter0 : 0 ≤ (pos.map (fun p =>
      (neg.map (fun n =>
        if n < p then (1 : ℚ) else if n = p then 1 / 2 else 0)).sum)).sum := by
    refine sum_nonneg ?_
    intro x hx
    obtain ⟨p, _, rfl⟩ := List.mem_map.mp hx
    exact (hinner p).1
  have houter1 : (pos.map (fun p =>
      (neg.map (fun n =>
        if n < p then (1 : ℚ) else if n = p then 1 / 2 else 0)).sum)).sum
      ≤ (pos.length : ℚ) * (neg.length : ℚ) := by
    have := sum_le_length_mul (l := pos.map (fun p =>
      (neg.map (fun n =>
        if n < p then (1 : ℚ) else if n = p then 1 / 2 else 0)).sum))
      (c := (neg.length : ℚ)) ?_
    · simpa using this
    · intro x hx
      obtain ⟨p, _, rfl⟩ := List.mem_map.mp hx
      exact (hinner p).2
  have hnn : (0 : ℚ) ≤ (pos.length : ℚ) * (neg.length : ℚ) :=
    mul_nonneg (Nat.cast_nonneg pos.length) (Nat.cast_nonneg neg.length)
  rcases eq_or_lt_of_le hnn with hz | hz
  · rw [← hz, div_zero]
    norm_num
  · exact ⟨div_nonneg houter0 hz.le, (div_le_one hz).mpr houter1⟩

/-! ## Cross-validation sweep

Embeds the notebook's λ loop

    results_dict = {}
    for lambda_val in lambda_vals:
        model = LogisticRegression(penalty="l1", solver="saga",
                                   max_iter=max_iter, C=1/lambda_val)
        cv_results = cross_validate(model, X_train, y_train, cv=kf,
                                    return_estimator=True,
                                    scoring=['balanced_accuracy','roc_auc'],
                                    n_jobs=-1)
        results_dict[lambda_val] = cv_results

and the aggregation cell that begins `lambda_vals = sorted(results_dict.keys())`.
The numerical saga solver is external to the repository; it enters the
embedding as an abstract fitting function `fit` from a regularization
value and training samples to a fitted model (prediction, probability
score, coefficient vector).  Every theorem below holds for every `fit`. -/

/-- A fitted `LogisticRegression` model as the notebooks consume it:
`predict`, `predict_proba[:, 1]`, and `coef_[0]`. -/
structure Model where
  predict : Row → Bool
  score : Row → ℚ
  coefs : List ℚ

/-- Default sample used for out-of-range index lookups. -/
def dfltSample : Sample := ([], false)

/-- The per-fold record `cross_validate` produces: the two test scores and
the fitted estimator's coefficient vector. -/
structure FoldEval where
  balAcc : ℚ
  auroc : ℚ
  coefs : List ℚ

/-- One `cv_results` object: the fold partition it was evaluated with
(`cv=kf`) and the per-fold results. -/
structure CVOut where
  folds : List (List ℕ)
  evals : List FoldEval

/-- `cross_validate(model, X_train, y_train, cv=kf, ...)` for the model at
one regularization value: for each fold, fit on the other folds and score
the held-out fold. -/
def crossValidate (fit : ℚ → List Sample → Model) (data : List Sample)
    (folds : List (List ℕ)) (lam : ℚ) : CVOut where
  folds := folds
  evals := (List.range folds.length).map (fun f =>
    let teIdx := folds.getD f []
    let trIdx := (folds.eraseIdx f).flatten
    let model := fit lam (trIdx.map (fun i => data.getD i dfltSample))
    let yTrue := teIdx.map (fun i => (data.getD i dfltSample).2)
    let yPred := teIdx.map (fun i => model.predict (data.getD i dfltSample).1)
    let yScore := teIdx.map (fun i => model.score (data.getD i dfltSample).1)
    { balAcc := balancedAccuracy yTrue yPred
      auroc := aurocScore yTrue yScore
      coefs := model.coefs })

/-- The λ loop: `results_dict` as an association list in insertion order. -/
def runSweep (fit : ℚ → List Sample → Model) (data : List Sample)
    (folds : List (List ℕ)) (grid : List ℚ) : List (ℚ × CVOut) :=
  grid.map (fun lam => (lam, crossValidate fit data folds lam))

/-- Python `dict` keys of the accumulated `results_dict`: first occurrence
of each value, in insertion order. -/
def firstDedup : List ℚ → List ℚ
  | [] => []
  | a :: t => a :: (firstDedup t).filter (fun b => decide (b ≠ a))

/-- One printed summary row.  The notebooks print standard deviations
(`np.std(·, ddof=1)`); `ℚ` has no square root, so each row carries the
exact sample variance, of which the printed value is the square root. -/
structure AggRow where
  lam : ℚ
  balAccMean : ℚ
  balAccVar : ℚ
  aurocMean : ℚ
  aurocVar : ℚ
  nonzeroMean : ℚ
  nonzeroVar : ℚ

/-- Aggregate one `cv_results` into a summary row, mirroring the loop body
(`np.mean`/`np.std(..., ddof=1)` of the two score arrays and of
`nonzero_counts = [np.count_nonzero(e.coef_[0]) for e in estimators]`). -/
def aggRowOf (lam : ℚ) (cv : CVOut) : AggRow :=
  let balAccs := cv.evals.map FoldEval.balAcc
  let aurocs := cv.evals.map FoldEval.auroc
  let nonzeros := cv.evals.map (fun e => ((countNonzero e.coefs : ℚ)))
  { lam := lam
    balAccMean := mean balAccs, balAccVar := sampleVar balAccs
    aurocMean := mean aurocs, aurocVar := sampleVar aurocs
    nonzeroMean := mean nonzeros, nonzeroVar := sampleVar nonzeros }

/-- Fallback for a key lookup that cannot fail. -/
def emptyCV : CVOut := ⟨[], []⟩

/-- The aggregation cell: `lambda_vals = sorted(results_dict.keys())`,
then one summary row per key in that sorted order. -/
def aggregate (results : List (ℚ × CVOut)) : List AggRow :=
  let keys := List.insertionSort (· ≤ ·) (firstDedup (results.map Prod.fst))
  keys.map (fun lam =>
    aggRowOf lam (match results.find? (fun r => decide (r.1 = lam)) with
      | some r => r.2
      | none => emptyCV))

/-- The whole sweep: λ loop followed by aggregation. -/
def sweepRows (fit : ℚ → List Sample → Model) (data : List Sample)
    (folds : List (List ℕ)) (grid : List ℚ) : List AggRow :=
  aggregate (runSweep fit data folds grid)

/-- A trivial instantiation of the abstract solver, used to evaluate the
sweep's bookkeeping (which is independent of the fitted model) on concrete
inputs. -/
def trivFit : ℚ → List Sample → Model :=
  fun _ _ => ⟨fun _ => true, fun _ => 0, []⟩

/-! ## Sweep invariants: single partition (C5) -/

theorem countP_range_self (k x : ℕ) (h : x < k) :
    (List.range k).countP (fun f => decide (x = f)) = 1 := by
  induction k with
  | zero => omega
  | succ k ih =>
    rw [List.range_succ, List.countP_append]
    rcases Nat.lt_or_ge x k with hx | hx
    · rw [ih hx]
      have : x ≠ k := by omega
      simp [this]
    · have hxk : x = k := by omega
      subst hxk
      have h0 : (List.range x).countP (fun f => decide (x = f)) = 0 := by
        rw [List.countP_eq_zero]
        intro a ha
        have := List.mem_range.mp ha
        simp only [decide_eq_true_eq]
        omega
      simp [h0]

theorem mem_makeFolds_iff (k f : ℕ) (trainIdx : List ℕ) (i : ℕ)
    (hnd : trainIdx.Nodup) :
    (i ∈ (trainIdx.enum.filter (fun p => decide (p.1 % k = f))).map Prod.snd)
      ↔ (i ∈ trainIdx ∧ (trainIdx.indexOf i) % k = f) := by
  constructor
  · rintro hm
    obtain ⟨p, hp, rfl⟩ := List.mem_map.mp hm
    obtain ⟨henum, hmod⟩ := List.mem_filter.mp hp
    have hget := List.mem_enum_iff_getElem?.mp henum
    have hmem : p.2 ∈ trainIdx := List.getElem?_mem hget
    have hlt : p.1 < trainIdx.length := by
      by_contra hge
      rw [List.getElem?_eq_none (by omega)] at hget
      exact Option.noConfusion hget
    have hidx : trainIdx.indexOf p.2 = p.1 := by
      have h1 : trainIdx[p.1] = p.2 := by
        rw [List.getElem?_eq_getElem hlt] at hget
        exact Option.some.inj hget
      have h2 : trainIdx.indexOf p.2 < trainIdx.length :=
        List.indexOf_lt_length.mpr hmem
      have h3 : trainIdx[trainIdx.indexOf p.2] = p.2 :=
        List.getElem_indexOf h2
      have := (List.Nodup.getElem_inj_iff hnd).mp (h3.trans h1.symm)
      omega
    exact ⟨hmem, by rw [hidx]; exact of_decide_eq_true hmod⟩
  · rintro ⟨hmem, hmod⟩
    refine List.mem_map.mpr ⟨(trainIdx.indexOf i, i), ?_, rfl⟩
    refine List.mem_filter.mpr ⟨?_, by simpa using hmod⟩
    refine List.mem_enum_iff_getElem?.mpr ?_
    have h2 : trainIdx.indexOf i < trainIdx.length :=
      List.indexOf_lt_length.mpr hmem
    rw [List.getElem?_eq_getElem h2]
    exact congrArg some (List.getElem_indexOf h2)

/-- C5: every candidate's cross-validation record carries the one fold
partition generated before the λ loop, and that partition assigns every
training sample to exactly one fold. -/
theorem sweep_single_partition (fit : ℚ → List Sample → Model)
    (data : List Sample) (k : ℕ) (trainIdx : List ℕ) (grid : List ℚ)
    (hk : 0 < k) (hnd : trainIdx.Nodup) :
    (∀ r ∈ runSweep fit data (makeFolds k trainIdx) grid,
        r.2.folds = makeFolds k trainIdx) ∧
    (∀ i ∈ trainIdx,
        (makeFolds k trainIdx).countP (fun fold => decide (i ∈ fold)) = 1) := by
  constructor
  · intro r hr
    obtain ⟨lam, _, rfl⟩ := List.mem_map.mp hr
    rfl
  · intro i hi
    unfold makeFolds
    rw [List.countP_map]
    have hcongr : ∀ f ∈ List.range k,
        (((fun fold => decide (i ∈ fold)) ∘ fun f =>
            (trainIdx.enum.filter (fun p => decide (p.1 % k = f))).map
              Prod.snd) f = true)
          ↔ ((fun f => decide (trainIdx.indexOf i % k = f)) f = true) := by
      intro f _
      simp only [Function.comp, decide_eq_true_eq]
      rw [mem_makeFolds_iff k f trainIdx i hnd]
      exact ⟨fun h => h.2, fun h => ⟨hi, h⟩⟩
    rw [List.countP_congr hcongr]
    exact countP_range_self k _ (Nat.mod_lt _ hk)

/-- Witness for C5: two folds over three training samples with one
candidate. -/
theorem sweep_single_partition_witness :
    (0 < 2 ∧ ([5, 7, 9] : List ℕ).Nodup) ∧
    ((∀ r ∈ runSweep trivFit [] (makeFolds 2 [5, 7, 9]) [1],
        r.2.folds = makeFolds 2 [5, 7, 9]) ∧
     (∀ i ∈ [5, 7, 9],
        (makeFolds 2 [5, 7, 9]).countP (fun fold => decide (i ∈ fold)) = 1)) :=
  ⟨⟨by norm_num, by decide⟩,
    sweep_single_partition trivFit [] 2 [5, 7, 9] [1] (by norm_num) (by decide)⟩

/-! ## Sweep output ordering (C6) -/

theorem map_lam_aggRow (l : List ℚ) (g : ℚ → CVOut) :
    ((l.map (fun lam => aggRowOf lam (g lam))).map AggRow.lam) = l := by
  rw [List.map_map]
  exact List.map_id' l

theorem aggregate_lam (results : List (ℚ × CVOut)) :
    (aggregate results).map AggRow.lam
      = List.insertionSort (· ≤ ·) (firstDedup (results.map Prod.fst)) := by
  unfold aggregate
  exact map_lam_aggRow _ _

theorem runSweep_fst (fit : ℚ → List Sample → Model) (data : List Sample)
    (folds : List (List ℕ)) (grid : List ℚ) :
    (runSweep fit data folds grid).map Prod.fst = grid := by
  unfold runSweep
  rw [List.map_map]
  exact List.map_id' grid

theorem sweepRows_lam (fit : ℚ → List Sample → Model) (data : List Sample)
    (folds : List (List ℕ)) (grid : List ℚ) :
    (sweepRows fit data folds grid).map AggRow.lam
      = List.insertionSort (· ≤ ·) (firstDedup grid) := by
  unfold sweepRows
  rw [aggregate_lam, runSweep_fst]

theorem firstDedup_eq_self {l : List ℚ} (h : l.Nodup) : firstDedup l = l := by
  induction l with
  | nil => rfl
  | cons a t ih =>
    rw [List.nodup_cons] at h
    unfold firstDedup
    rw [ih h.2, List.filter_eq_self.mpr]
    intro b hb
    simp only [decide_eq_true_eq]
    intro hba
    exact h.1 (hba ▸ hb)

/-- C6 (amended): the aggregate output has one row per *distinct* candidate
in *ascending numeric order* of the candidate value (Python's
`sorted(results_dict.keys())`); this equals the supplied order exactly when
the supplied grid is already strictly increasing. -/
theorem sweepRows_order (fit : ℚ → List Sample → Model) (data : List Sample)
    (folds : List (List ℕ)) (grid : List ℚ) :
    (sweepRows fit data folds grid).map AggRow.lam
        = List.insertionSort (· ≤ ·) (firstDedup grid) ∧
    (grid.Pairwise (· < ·) →
      (sweepRows fit data folds grid).map AggRow.lam = grid) := by
  refine ⟨sweepRows_lam fit data folds grid, fun hs => ?_⟩
  rw [sweepRows_lam fit data folds grid]
  have hnd : grid.Nodup := hs.imp ne_of_lt
  rw [firstDedup_eq_self hnd]
  exact List.Sorted.insertionSort_eq (hs.imp le_of_lt)

/-- Witness for C6's conditional clause at the strictly increasing grid
`[1, 2]`. -/
theorem sweepRows_order_witness :
    (([1, 2] : List ℚ).Pairwise (· < ·)) ∧
    (sweepRows trivFit [] [] [1, 2]).map AggRow.lam = [1, 2] :=
  ⟨by norm_num, (sweepRows_order trivFit [] [] [1, 2]).2 (by norm_num)⟩

/-- C6 counterexample: the candidate grid supplied as `[2, 1]` is reported
as rows `[1, 2]` — ascending numeric order, not the caller's order. -/
theorem sweepRows_order_counterexample :
    (sweepRows trivFit [([0], true)] [[0]] [2, 1]).map AggRow.lam = [1, 2] ∧
    ([1, 2] : List ℚ) ≠ [2, 1] := by
  constructor
  · rfl
  · intro h
    norm_num at h

/-! ## End-to-end sweep scenario (C7) -/

theorem crossValidate_evals_bounds (fit : ℚ → List Sample → Model)
    (data : List Sample) (folds : List (List ℕ)) (lam : ℚ) :
    ∀ e ∈ (crossValidate fit data folds lam).evals,
      (0 ≤ e.balAcc ∧ e.balAcc ≤ 1) ∧ (0 ≤ e.auroc ∧ e.auroc ≤ 1) := by
  intro e he
  unfold crossValidate at he
  dsimp only at he
  obtain ⟨f, _, rfl⟩ := List.mem_map.mp he
  exact ⟨balancedAccuracy_mem_unitInterval _ _, aurocScore_mem_unitInterval _ _⟩

theorem aggRowOf_bounds (lam : ℚ) (cv : CVOut)
    (h : ∀ e ∈ cv.evals,
      (0 ≤ e.balAcc ∧ e.balAcc ≤ 1) ∧ (0 ≤ e.auroc ∧ e.auroc ≤ 1)) :
    (0 ≤ (aggRowOf lam cv).balAccMean ∧ (aggRowOf lam cv).balAccMean ≤ 1) ∧
    (0 ≤ (aggRowOf lam cv).aurocMean ∧ (aggRowOf lam cv).aurocMean ≤ 1) := by
  unfold aggRowOf
  dsimp only
  constructor
  · refine mean_mem_unitInterval ?_
    intro x hx
    obtain ⟨e, he, rfl⟩ := List.mem_map.mp hx
    exact (h e he).1
  · refine mean_mem_unitInterval ?_
    intro x hx
    obtain ⟨e, he, rfl⟩ := List.mem_map.mp hx
    exact (h e he).2

theorem sweepRows_mem_bounds (fit : ℚ → List Sample → Model)
    (data : List Sample) (folds : List (List ℕ)) (grid : List ℚ) :
    ∀ row ∈ sweepRows fit data folds grid,
      (0 ≤ row.balAccMean ∧ row.balAccMean ≤ 1) ∧
      (0 ≤ row.aurocMean ∧ row.aurocMean ≤ 1) := by
  intro row hrow
  unfold sweepRows aggregate at hrow
  dsimp only at hrow
  obtain ⟨lam, _, rfl⟩ := List.mem_map.mp hrow
  rcases hfind : (runSweep fit data folds grid).find?
      (fun r => decide (r.1 = lam)) with _ | r
  · rw [hfind]
    refine aggRowOf_bounds lam emptyCV ?_
    intro e he
    exact absurd he (List.not_mem_nil e)
  · rw [hfind]
    refine aggRowOf_bounds lam r.2 ?_
    have hmem : r ∈ runSweep fit data folds grid :=
      List.mem_of_find?_eq_some hfind
    unfold runSweep at hmem
    obtain ⟨lam', _, rfl⟩ := List.mem_map.mp hmem
    exact crossValidate_evals_bounds fit data folds lam'

/-- C7: for a dataset of 1000 samples with 20 features and 50/50-balanced
binary labels, a 5-fold sweep over the grid `[0.1, 1, 10, 100]` returns
exactly 4 aggregate rows, each with mean balanced accuracy in `[0, 1]` and
mean AUROC in `[0, 1]` — for every fitting routine and every fold
ordering. -/
theorem sweep_end_to_end (fit : ℚ → List Sample → Model)
    (data : List Sample) (trainIdx : List ℕ)
    (h1 : data.length = 1000) (h2 : ∀ s ∈ data, s.1.length = 20)
    (h3 : data.countP (fun s => s.2) = 500) :
    (sweepRows fit data (makeFolds 5 trainIdx) [1/10, 1, 10, 100]).length = 4 ∧
    ∀ row ∈ sweepRows fit data (makeFolds 5 trainIdx) [1/10, 1, 10, 100],
      (0 ≤ row.balAccMean ∧ row.balAccMean ≤ 1) ∧
      (0 ≤ row.aurocMean ∧ row.aurocMean ≤ 1) := by
  refine ⟨?_, sweepRows_mem_bounds fit data _ _⟩
  have hlam := sweepRows_lam fit data (makeFolds 5 trainIdx) [1/10, 1, 10, 100]
  have hlen : ((sweepRows fit data (makeFolds 5 trainIdx)
      [1/10, 1, 10, 100]).map AggRow.lam).length
      = (List.insertionSort (· ≤ ·)
          (firstDedup [1/10, 1, 10, 100])).length := by
    rw [hlam]
  rw [List.length_map, List.length_insertionSort] at hlen
  have hnd : ([1/10, 1, 10, 100] : List ℚ).Nodup := by norm_num
  rw [hlen, firstDedup_eq_self hnd]
  rfl

/-- Witness dataset for C7: 500 copies of a balanced two-sample block,
each sample with 20 features. -/
def witnessData : List Sample :=
  (List.replicate 500 [((List.replicate 20 (0 : ℚ)), true),
    ((List.replicate 20 (0 : ℚ)), false)]).flatten

theorem witnessData_length : witnessData.length = 1000 := by
  unfold witnessData
  rw [List.length_flatten, List.map_replicate, List.sum_replicate]
  norm_num

theorem witnessData_width : ∀ s ∈ witnessData, s.1.length = 20 := by
  intro s hs
  unfold witnessData at hs
  obtain ⟨l, hl, hsl⟩ := List.mem_flatten.mp hs
  have := List.eq_of_mem_replicate hl
  subst this
  simp only [List.mem_cons, List.not_mem_nil, or_false] at hsl
  rcases hsl with h | h <;> subst h <;> simp

theorem witnessData_balance : witnessData.countP (fun s => s.2) = 500 := by
  unfold witnessData
  rw [List.countP_flatten, List.map_replicate, List.sum_replicate]
  norm_num [List.countP_cons]

/-- Witness for C7 at `witnessData` with the trivial solver. -/
theorem sweep_end_to_end_witness :
    (witnessData.length = 1000 ∧
     (∀ s ∈ witnessData, s.1.length = 20) ∧
     witnessData.countP (fun s => s.2) = 500) ∧
    ((sweepRows trivFit witnessData (makeFolds 5 [])
        [1/10, 1, 10, 100]).length = 4 ∧
     ∀ row ∈ sweepRows trivFit witnessData (makeFolds 5 [])
        [1/10, 1, 10, 100],
        (0 ≤ row.balAccMean ∧ row.balAccMean ≤ 1) ∧
        (0 ≤ row.aurocMean ∧ row.aurocMean ≤ 1)) :=
  ⟨⟨witnessData_length, witnessData_width, witnessData_balance⟩,
    sweep_end_to_end trivFit witnessData []
      witnessData_length witnessData_width witnessData_balance⟩

/-! ## Benjamini-Hochberg FDR correction (C9)

Embeds `statsmodels.stats.multitest.multipletests(pvals, method='fdr_bh')`:

    sortind              = np.argsort(pvals)
    pvals_sorted         = pvals[sortind]
    ecdffactor           = np.arange(1, n+1) / n
    pvals_corrected_raw  = pvals_sorted / ecdffactor
    pvals_corrected      = np.minimum.accumulate(pvals_corrected_raw[::-1])[::-1]
    pvals_corrected[pvals_corrected > 1] = 1
    pvals_corrected_[sortind] = pvals_corrected

`argsort` is modelled as the stable ascending sort of the index list. -/

/-- Stable ascending argsort order for the p-value list. -/
def bhLE (p : List ℚ) (i j : ℕ) : Prop :=
  p.getD i 0 < p.getD j 0 ∨ (p.getD i 0 = p.getD j 0 ∧ i ≤ j)

instance (p : List ℚ) : DecidableRel (bhLE p) := fun i j =>
  inferInstanceAs (Decidable (_ ∨ _))

instance (p : List ℚ) : IsTotal ℕ (bhLE p) where
  total i j := by
    rcases lt_trichotomy (p.getD i 0) (p.getD j 0) with h | h | h
    · exact Or.inl (Or.inl h)
    · rcases Nat.le_total i j with hij | hij
      · exact Or.inl (Or.inr ⟨h, hij⟩)
      · exact Or.inr (Or.inr ⟨h.symm, hij⟩)
    · exact Or.inr (Or.inl h)

instance (p : List ℚ) : IsTrans ℕ (bhLE p) where
  trans i j k hij hjk := by
    rcases hij with h1 | ⟨h1, h1'⟩ <;> rcases hjk with h2 | ⟨h2, h2'⟩
    · exact Or.inl (h1.trans h2)
    · exact Or.inl (h2 ▸ h1)
    · exact Or.inl (h1 ▸ h2)
    · exact Or.inr ⟨h1.trans h2, h1'.trans h2'⟩

/-- `np.argsort(pvals)` as original indices in stable ascending order. -/
def bhArgsort (p : List ℚ) : List ℕ :=
  List.insertionSort (bhLE p) (List.range p.length)

/-- `pvals_sorted = pvals[sortind]`. -/
def bhSortedP (p : List ℚ) : List ℚ :=
  (bhArgsort p).map (fun i => p.getD i 0)

/-- `pvals_corrected_raw = pvals_sorted / ecdffactor`, i.e. entry `t` is
`pvals_sorted[t] * n / (t+1)`. -/
def bhRaw (p : List ℚ) : List ℚ :=
  (List.range p.length).map
    (fun t => (bhSortedP p).getD t 0 * (p.length : ℚ) / ((t : ℚ) + 1))

/-- `np.minimum.accumulate(x[::-1])[::-1]`: entry `t` becomes the minimum
of entries `t, t+1, …`. -/
def cumMinFromRight : List ℚ → List ℚ
  | [] => []
  | a :: t =>
    match cumMinFromRight t with
    | [] => [a]
    | b :: t' => min a b :: b :: t'

/-- Corrected p-values in sorted position, after the right-to-left
accumulated minimum and the clip at `1`. -/
def bhCorrSorted (p : List ℚ) : List ℚ :=
  (cumMinFromRight (bhRaw p)).map (fun q => min q 1)

/-- `multipletests(..., method='fdr_bh')[1]`: corrected p-values scattered
back to original positions (`pvals_corrected_[sortind] = pvals_corrected`). -/
def fdrBH (p : List ℚ) : List ℚ :=
  (List.range p.length).map (fun i =>
    (bhCorrSorted p).getD ((bhArgsort p).indexOf i) 0)

theorem bhArgsort_perm (p : List ℚ) :
    (bhArgsort p).Perm (List.range p.length) :=
  List.perm_insertionSort _ _

theorem bhArgsort_length (p : List ℚ) : (bhArgsort p).length = p.length := by
  unfold bhArgsort
  rw [List.length_insertionSort, List.length_range]

theorem bhSortedP_sorted (p : List ℚ) : (bhSortedP p).Sorted (· ≤ ·) := by
  unfold bhSortedP
  rw [List.Sorted, List.pairwise_map]
  refine (List.sorted_insertionSort (bhLE p) (List.range p.length)).imp ?_
  intro i j h
  rcases h with h | ⟨h, _⟩
  · exact h.le
  · exact h.le

theorem cumMinFromRight_length (l : List ℚ) :
    (cumMinFromRight l).length = l.length := by
  induction l with
  | nil => rfl
  | cons a t ih =>
    unfold cumMinFromRight
    rcases hcm : cumMinFromRight t with _ | ⟨b, t'⟩
    · rw [hcm] at ih
      simp only [List.length_nil] at ih
      simp [← ih]
    · rw [hcm] at ih
      simp only [List.length_cons] at ih ⊢
      omega

theorem cumMinFromRight_ge (x : ℚ) :
    ∀ (l : List ℚ) (t : ℕ), t < l.length →
      (∀ u, t ≤ u → u < l.length → x ≤ l.getD u 0) →
      x ≤ (cumMinFromRight l).getD t 0 := by
  intro l
  induction l with
  | nil =>
    intro t ht
    simp only [List.length_nil] at ht
    omega
  | cons a tl ih =>
    intro t ht hbd
    rcases t with _ | t'
    · have hxa : x ≤ a := by
        have := hbd 0 (le_refl 0) (by simp)
        simpa using this
      unfold cumMinFromRight
      rcases hcm : cumMinFromRight tl with _ | ⟨b, t''⟩
      · simpa using hxa
      · have htl : 0 < tl.length := by
          have := cumMinFromRight_length tl
          rw [hcm] at this
          simp only [List.length_cons] at this
          omega
        have hxb : x ≤ b := by
          have := ih 0 htl (fun u hu hul => by
            have := hbd (u + 1) (by omega) (by simp; omega)
            simpa using this)
          rw [hcm] at this
          simpa using this
        simp only [List.getD_cons_zero]
        exact le_min hxa hxb
    · simp only [List.length_cons] at ht
      have ht' : t' < tl.length := by omega
      have hcmlen : 0 < (cumMinFromRight tl).length := by
        rw [cumMinFromRight_length]; omega
      unfold cumMinFromRight
      rcases hcm : cumMinFromRight tl with _ | ⟨b, t''⟩
      · rw [hcm] at hcmlen; simp at hcmlen
      · have := ih t' ht' (fun u hu hul => by
          have := hbd (u + 1) (by omega) (by simp; omega)
          simpa using this)
        rw [hcm] at this
        simpa using this

theorem bhSortedP_mem_unit {p : List ℚ} (hp : ∀ x ∈ p, 0 ≤ x ∧ x ≤ 1) :
    ∀ x ∈ bhSortedP p, 0 ≤ x ∧ x ≤ 1 := by
  intro x hx
  obtain ⟨i, hi, rfl⟩ := List.mem_map.mp hx
  have hir : i ∈ List.range p.length := (bhArgsort_perm p).subset hi
  have hlt : i < p.length := List.mem_range.mp hir
  rw [List.getD_eq_getElem _ _ hlt]
  exact hp _ (List.getElem_mem hlt)

theorem fdrBH_length (p : List ℚ) : (fdrBH p).length = p.length := by
  unfold fdrBH
  rw [List.length_map, List.length_range]

theorem fdrBH_pointwise (p : List ℚ) (hp : ∀ x ∈ p, 0 ≤ x ∧ x ≤ 1)
    (i : ℕ) (hi : i < p.length) :
    p.getD i 0 ≤ (fdrBH p).getD i 0 := by
  have hmemArg : i ∈ bhArgsort p :=
    ((bhArgsort_perm p).mem_iff).mpr (List.mem_range.mpr hi)
  set pos := (bhArgsort p).indexOf i with hposdef
  have hposlt : pos < (bhArgsort p).length := List.indexOf_lt_length.mpr hmemArg
  have hposlt' : pos < p.length := by rw [← bhArgsort_length p]; exact hposlt
  have hrawlen : (bhRaw p).length = p.length := by
    unfold bhRaw; rw [List.length_map, List.length_range]
  have hcorrlen : (bhCorrSorted p).length = p.length := by
    unfold bhCorrSorted
    rw [List.length_map, cumMinFromRight_length, hrawlen]
  have hsortlen : (bhSortedP p).length = p.length := by
    unfold bhSortedP; rw [List.length_map, bhArgsort_length]
  have h1 : (fdrBH p).getD i 0 = (bhCorrSorted p).getD pos 0 := by
    unfold fdrBH
    rw [List.getD_eq_getElem _ _
      (by rw [List.length_map, List.length_range]; exact hi),
      List.getElem_map, List.getElem_range]
  have h2 : (bhCorrSorted p).getD pos 0
      = min ((cumMinFromRight (bhRaw p)).getD pos 0) 1 := by
    unfold bhCorrSorted
    rw [List.getD_eq_getElem _ _
        (by rw [List.length_map, cumMinFromRight_length, hrawlen]; exact hposlt'),
      List.getElem_map,
      List.getD_eq_getElem _ _
        (by rw [cumMinFromRight_length, hrawlen]; exact hposlt')]
  have h3 : (bhSortedP p).getD pos 0 = p.getD i 0 := by
    unfold bhSortedP
    rw [List.getD_eq_getElem _ _ (by rw [List.length_map]; exact hposlt),
      List.getElem_map]
    congr 1
    exact List.getElem_indexOf hposlt
  have hpi : 0 ≤ p.getD i 0 ∧ p.getD i 0 ≤ 1 := by
    rw [List.getD_eq_getElem _ _ hi]
    exact hp _ (List.getElem_mem hi)
  have hlb : p.getD i 0 ≤ (cumMinFromRight (bhRaw p)).getD pos 0 := by
    apply cumMinFromRight_ge
    · rw [hrawlen]; exact hposlt'
    · intro u hu hul
      rw [hrawlen] at hul
      have h4 : (bhRaw p).getD u 0
          = (bhSortedP p).getD u 0 * (p.length : ℚ) / ((u : ℚ) + 1) := by
        unfold bhRaw
        rw [List.getD_eq_getElem _ _
          (by rw [List.length_map, List.length_range]; exact hul),
          List.getElem_map, List.getElem_range]
      have hulen : u < (bhSortedP p).length := by rw [hsortlen]; exact hul
      have h6 : 0 ≤ (bhSortedP p).getD u 0 := by
        rw [List.getD_eq_getElem _ _ hulen]
        exact (bhSortedP_mem_unit hp _ (List.getElem_mem hulen)).1
      have h5 : p.getD i 0 ≤ (bhSortedP p).getD u 0 := by
        rcases eq_or_lt_of_le hu with rfl | hlt
        · rw [h3]
        · rw [← h3]
          have hposlen : pos < (bhSortedP p).length := by
            rw [hsortlen]; exact hposlt'
          have hrel := (bhSortedP_sorted p).rel_get_of_lt
            (a := ⟨pos, hposlen⟩) (b := ⟨u, hulen⟩) (by exact hlt)
          rw [List.getD_eq_getElem _ _ hposlen, List.getD_eq_getElem _ _ hulen]
          simpa using hrel
      have h7 : ((u : ℚ) + 1) ≤ (p.length : ℚ) := by
        have : u + 1 ≤ p.length := hul
        exact_mod_cast this
      rw [h4]
      calc p.getD i 0 ≤ (bhSortedP p).getD u 0 := h5
        _ ≤ (bhSortedP p).getD u 0 * (p.length : ℚ) / ((u : ℚ) + 1) := by
            rw [le_div_iff₀ (by positivity)]
            exact mul_le_mul_of_nonneg_left h7 h6
  rw [h1, h2]
  exact le_min hlb hpi.2

theorem countP_lt_mono (α : ℚ) :
    ∀ (l1 l2 : List ℚ), l1.length = l2.length →
      (∀ i, i < l1.length → l1.getD i 0 ≤ l2.getD i 0) →
      l2.countP (fun x => decide (x < α)) ≤ l1.countP (fun x => decide (x < α)) := by
  intro l1
  induction l1 with
  | nil =>
    intro l2 hlen _
    cases l2 with
    | nil => simp
    | cons b t2 => simp at hlen
  | cons a t ih =>
    intro l2 hlen hle
    cases l2 with
    | nil => simp at hlen
    | cons b t2 =>
      simp only [List.length_cons] at hlen
      have hab : a ≤ b := by
        have := hle 0 (by simp)
        simpa using this
      have ht := ih t2 (by omega) (fun j hj => by
        have := hle (j + 1) (by simp only [List.length_cons]; omega)
        simpa using this)
      rw [List.countP_cons, List.countP_cons]
      have hcase : (if decide (b < α) = true then 1 else 0)
          ≤ (if decide (a < α) = true then 1 else 0) := by
        by_cases hb : b < α
        · have ha : a < α := lt_of_le_of_lt hab hb
          simp [hb, ha]
        · simp [hb]
      omega

/-- C9: the Benjamini-Hochberg correction never decreases any p-value (for
p-values in `[0, 1]`), so the count of corrected p-values below `alpha`
never exceeds the count of uncorrected p-values below `alpha`. -/
theorem fdrBH_spec (p : List ℚ) (α : ℚ) (hp : ∀ x ∈ p, 0 ≤ x ∧ x ≤ 1) :
    (∀ i, i < p.length → p.getD i 0 ≤ (fdrBH p).getD i 0) ∧
    (fdrBH p).countP (fun x => decide (x < α))
      ≤ p.countP (fun x => decide (x < α)) := by
  refine ⟨fdrBH_pointwise p hp, ?_⟩
  exact countP_lt_mono α p (fdrBH p) (fdrBH_length p).symm (fdrBH_pointwise p hp)

/-- Witness for C9 on the concrete p-value vector `[1/100, 3/10]` at
`alpha = 1/20`. -/
theorem fdrBH_spec_witness :
    (∀ x ∈ [(1 : ℚ)/100, 3/10], 0 ≤ x ∧ x ≤ 1) ∧
    ((∀ i, i < ([(1 : ℚ)/100, 3/10] : List ℚ).length →
        ([(1 : ℚ)/100, 3/10] : List ℚ).getD i 0
          ≤ (fdrBH [(1 : ℚ)/100, 3/10]).getD i 0) ∧
     (fdrBH [(1 : ℚ)/100, 3/10]).countP (fun x => decide (x < 1/20))
       ≤ ([(1 : ℚ)/100, 3/10] : List ℚ).countP (fun x => decide (x < 1/20))) := by
  have hp : ∀ x ∈ [(1 : ℚ)/100, 3/10], 0 ≤ x ∧ x ≤ 1 := by
    intro x hx
    simp only [List.mem_cons, List.not_mem_nil, or_false] at hx
    rcases hx with rfl | rfl <;> constructor <;> norm_num
  exact ⟨hp, fdrBH_spec [(1 : ℚ)/100, 3/10] (1/20) hp⟩

/-! ## Pathway-enrichment significance counts (C10)

Embeds the notebook cell

    N_uncorr_acc = ((data9["two_sided_p_values"] < alpha)
                    & (data9["odds_ratios"] != 1.0)).sum()
    N_corr_acc   = ((data9["two_sided_p_values-adjusted"] < alpha)
                    & (data9["odds_ratios"] != 1.0)).sum()

where the adjusted column is `multipletests(..., method='fdr_bh')[1]` of
the p-value column.  The elementwise boolean `&` of the two series summed
over rows is the `countP` of the conjunction over zipped columns. -/

/-- Sum of the elementwise conjunction of `column < α` and `column ≠ 1`
over paired rows. -/
def pathwaySigCount (ps odds : List ℚ) (α : ℚ) : ℕ :=
  (ps.zip odds).countP (fun r => decide (r.1 < α) && decide (r.2 ≠ 1))

/-- `N_uncorr_acc`: significance count from uncorrected p-values. -/
def N_uncorr_acc (ps odds : List ℚ) (α : ℚ) : ℕ := pathwaySigCount ps odds α

/-- `N_corr_acc`: significance count from BH-corrected p-values. -/
def N_corr_acc (ps odds : List ℚ) (α : ℚ) : ℕ :=
  pathwaySigCount (fdrBH ps) odds α

theorem countP_zip_eq_range (P : ℚ → ℚ → Bool) :
    ∀ (l1 l2 : List ℚ), l1.length = l2.length →
      (l1.zip l2).countP (fun r => P r.1 r.2)
        = (List.range l1.length).countP (fun i => P (l1.getD i 0) (l2.getD i 0)) := by
  intro l1
  induction l1 with
  | nil =>
    intro l2 _
    simp
  | cons a t ih =>
    intro l2 hlen
    cases l2 with
    | nil => simp at hlen
    | cons b t2 =>
      simp only [List.length_cons] at hlen
      rw [List.zip_cons_cons, List.countP_cons, ih t2 (by omega),
        List.length_cons, List.range_succ_eq_map, List.countP_cons,
        List.countP_map]
      simp only [List.getD_cons_zero, Function.comp_def, Nat.succ_eq_add_one,
        List.getD_cons_succ]

/-- C10: a pathway contributes to `N_uncorr_acc` (resp. `N_corr_acc`)
exactly when its uncorrected (resp. BH-corrected) p-value is below `alpha`
*and* its odds ratio is not exactly `1`; in particular a pathway with a
significant p-value but odds ratio `1` is excluded from both counts. -/
theorem pathway_counts_spec (ps odds : List ℚ) (α : ℚ)
    (h : ps.length = odds.length) :
    N_uncorr_acc ps odds α
        = (List.range ps.length).countP
            (fun i => decide (ps.getD i 0 < α ∧ odds.getD i 0 ≠ 1)) ∧
    N_corr_acc ps odds α
        = (List.range ps.length).countP
            (fun i => decide ((fdrBH ps).getD i 0 < α ∧ odds.getD i 0 ≠ 1)) := by
  constructor
  · unfold N_uncorr_acc pathwaySigCount
    rw [countP_zip_eq_range (fun x y => decide (x < α) && decide (y ≠ 1)) ps odds h]
    refine List.countP_congr ?_
    intro i _
    simp [Bool.decide_and]
  · unfold N_corr_acc pathwaySigCount
    rw [countP_zip_eq_range (fun x y => decide (x < α) && decide (y ≠ 1))
      (fdrBH ps) odds (by rw [fdrBH_length]; exact h), fdrBH_length]
    refine List.countP_congr ?_
    intro i _
    simp [Bool.decide_and]

/-- Witness for C10 on three concrete pathways: the second has `p < alpha`
but odds ratio exactly `1`, and is excluded from both counts. -/
theorem pathway_counts_spec_witness :
    (([(1 : ℚ)/100, 1/100, 1/2] : List ℚ).length
        = ([(2 : ℚ), 1, 3] : List ℚ).length) ∧
    (N_uncorr_acc [(1 : ℚ)/100, 1/100, 1/2] [(2 : ℚ), 1, 3] (1/20)
        = (List.range 3).countP
            (fun i => decide (([(1 : ℚ)/100, 1/100, 1/2] : List ℚ).getD i 0 < 1/20
              ∧ ([(2 : ℚ), 1, 3] : List ℚ).getD i 0 ≠ 1)) ∧
     N_corr_acc [(1 : ℚ)/100, 1/100, 1/2] [(2 : ℚ), 1, 3] (1/20)
        = (List.range 3).countP
            (fun i => decide ((fdrBH [(1 : ℚ)/100, 1/100, 1/2]).getD i 0 < 1/20
              ∧ ([(2 : ℚ), 1, 3] : List ℚ).getD i 0 ≠ 1))) :=
  ⟨rfl, pathway_counts_spec [(1 : ℚ)/100, 1/100, 1/2] [(2 : ℚ), 1, 3] (1/20) rfl⟩

end BPS
